import Mathlib

/-!
Shallow embedding of the `zrata-trader` backtest cache core:
`engine/cache/hasher.py` (`BacktestHashGenerator`) and
`engine/models/backtest_models.py` (`BacktestIdentity`, `BacktestMetadata`,
`BacktestResult`, `BacktestRecord`, `CacheStats`), together with proofs
about the canonicalization, hashing and bookkeeping behaviour.

Python strings are modelled as `List Char` (code points, in order);
Python ints as `Int`; Python floats that the claims touch only as exact
values as `Rat`; `datetime` instants as abstract ticks (`Nat`).
Fallible Python code (raising `TypeError` / `ValueError` / `AttributeError`)
is modelled with `Except String`.
-/

namespace ZrataTrader

/-- The character list of a Python `str`. -/
def str (s : String) : List Char := s.data

/-- Python string comparison `a < b`: lexicographic by code point. -/
def lexLt : List Char → List Char → Bool
  | [], [] => false
  | [], _ :: _ => true
  | _ :: _, [] => false
  | a :: as, b :: bs => if a < b then true else if b < a then false else lexLt as bs

/-- The JSON-like universe of Python values fed to
`BacktestHashGenerator._normalize_dict`: ints, strings, lists, and
string-keyed dicts (a dict is its item list in insertion order). -/
inductive JVal : Type where
  | jnum : Int → JVal
  | jstr : List Char → JVal
  | jlist : List JVal → JVal
  | jdict : List (List Char × JVal) → JVal

mutual
/-- Python `==` on the modelled universe.  Inside `_normalize_dict` it is
only ever applied (through list comparison during sorting) to values that
are already normalized, where Python dict equality coincides with
structural equality of the key-sorted item lists, so item lists are
compared positionally here. -/
def jvalBeq : JVal → JVal → Bool
  | .jnum a, .jnum b => a == b
  | .jstr a, .jstr b => a == b
  | .jlist a, .jlist b => jlistBeq a b
  | .jdict a, .jdict b => jentsBeq a b
  | _, _ => false
termination_by a b => sizeOf a + sizeOf b

/-- Elementwise `==` on lists of values. -/
def jlistBeq : List JVal → List JVal → Bool
  | [], [] => true
  | x :: xs, y :: ys => jvalBeq x y && jlistBeq xs ys
  | _, _ => false
termination_by a b => sizeOf a + sizeOf b

/-- Elementwise `==` on dict item lists. -/
def jentsBeq : List (List Char × JVal) → List (List Char × JVal) → Bool
  | [], [] => true
  | (k, v) :: es, (l, w) :: fs => k == l && (jvalBeq v w && jentsBeq es fs)
  | _, _ => false
termination_by a b => sizeOf a + sizeOf b
end

/-- The Python type class of a value, for comparability: Python defines
`<` between two ints, two strs, two lists, but between no other pair of
these classes, and not between dicts. -/
inductive PyClass : Type where
  | cnum | cstr | clist | cdict
deriving DecidableEq

/-- Class of a value. -/
def JVal.cls : JVal → PyClass
  | .jnum _ => .cnum
  | .jstr _ => .cstr
  | .jlist _ => .clist
  | .jdict _ => .cdict

mutual
/-- Python `x < y` on the modelled universe, `none` when the comparison
raises `TypeError`: ints by value, strs lexicographically, lists
lexicographically (skipping equal prefixes with `==`, as CPython does),
dicts and cross-class pairs unorderable. -/
def pylt : JVal → JVal → Option Bool
  | .jnum a, .jnum b => some (decide (a < b))
  | .jstr a, .jstr b => some (lexLt a b)
  | .jlist a, .jlist b => pyltList a b
  | _, _ => none
termination_by a b => sizeOf a + sizeOf b

/-- Python list comparison: find the first index where the elements are
not `==`-equal and compare those elements with `<`; if one list is a
prefix of the other, the shorter is smaller. -/
def pyltList : List JVal → List JVal → Option Bool
  | [], [] => some false
  | [], _ :: _ => some true
  | _ :: _, [] => some false
  | x :: xs, y :: ys => if jvalBeq x y then pyltList xs ys else pylt x y
termination_by a b => sizeOf a + sizeOf b
end

/-- The message of the `TypeError` raised by `_normalize_dict` when a
list cannot be sorted. -/
def unsortableMsg : String := "Unsortable list items found"

/-- One insertion step of the model of Python `sorted`: place `x` before
the first element that is greater, failing when an unorderable pair is
compared. -/
def insertP (x : JVal) : List JVal → Except String (List JVal)
  | [] => .ok [x]
  | y :: ys =>
    match pylt x y with
    | none => .error unsortableMsg
    | some true => .ok (x :: y :: ys)
    | some false =>
      match insertP x ys with
      | .error e => .error e
      | .ok zs => .ok (y :: zs)

/-- Model of Python `sorted` on the canonicalized universe: raises
(`.error`) exactly when two elements with no defined order must be
compared, which on this universe happens exactly when the list has two
elements of different classes or at least two elements besides a dict
(`CacheStats` claims C2/C3 rest on the lemmas below, not on the
incidental comparison order of CPython timsort). -/
def sortP : List JVal → Except String (List JVal)
  | [] => .ok []
  | x :: xs =>
    match sortP xs with
    | .error e => .error e
    | .ok ys => insertP x ys

/-- Insert a dict item into an item list sorted by key
(`sorted(data.items())` compares the key component first, and dict keys
are distinct, so the value component never decides). -/
def insEntry (e : List Char × JVal) :
    List (List Char × JVal) → List (List Char × JVal)
  | [] => [e]
  | f :: fs => if lexLt e.1 f.1 then e :: f :: fs else f :: insEntry e fs

/-- Model of `sorted(data.items())` for a string-keyed dict. -/
def sortEntries : List (List Char × JVal) → List (List Char × JVal)
  | [] => []
  | e :: es => insEntry e (sortEntries es)

theorem insEntry_perm (e : List Char × JVal) (fs : List (List Char × JVal)) :
    (insEntry e fs).Perm (e :: fs) := by
  induction fs with
  | nil => simp [insEntry]
  | cons f fs ih =>
    simp only [insEntry]
    by_cases h : lexLt e.1 f.1
    · simp [h]
    · simp only [h, if_neg, Bool.false_eq_true, if_false]
      exact ((ih.cons f).trans (List.Perm.swap e f fs)).symm.symm

theorem sortEntries_perm (es : List (List Char × JVal)) :
    (sortEntries es).Perm es := by
  induction es with
  | nil => simp [sortEntries]
  | cons e es ih =>
    exact (insEntry_perm e (sortEntries es)).trans (ih.cons e)

theorem perm_sizeOf {α : Type} [SizeOf α] {l₁ l₂ : List α}
    (h : l₁.Perm l₂) : sizeOf l₁ = sizeOf l₂ := by
  induction h with
  | nil => rfl
  | cons x _ ih => simp [ih]
  | swap x y l => simp; omega
  | trans _ _ ih₁ ih₂ => exact ih₁.trans ih₂

theorem sortEntries_sizeOf (es : List (List Char × JVal)) :
    sizeOf (sortEntries es) = sizeOf es :=
  perm_sizeOf (sortEntries_perm es)

mutual
/-- `BacktestHashGenerator._normalize_dict`: recursively normalize a
value.  A dict becomes the dict of its items sorted by key with
normalized values; a list has its elements normalized and then sorted
(the `try`/`except TypeError` around `sorted` re-raises as
`TypeError("Unsortable list items found")`, the sole error of this
code path); anything else is returned unchanged. -/
def normalize_dict : JVal → Except String JVal
  | .jnum n => .ok (.jnum n)
  | .jstr s => .ok (.jstr s)
  | .jdict es =>
    match normEntries (sortEntries es) with
    | .error e => .error e
    | .ok fs => .ok (.jdict fs)
  | .jlist xs =>
    match normItems xs with
    | .error e => .error e
    | .ok ys =>
      match sortP ys with
      | .error e => .error e
      | .ok zs => .ok (.jlist zs)
termination_by v => sizeOf v
decreasing_by
  all_goals simp_wf
  all_goals try rw [sortEntries_sizeOf]
  all_goals omega

/-- The list comprehension `[_normalize_dict(item) for item in data]`. -/
def normItems : List JVal → Except String (List JVal)
  | [] => .ok []
  | x :: xs =>
    match normalize_dict x with
    | .error e => .error e
    | .ok y =>
      match normItems xs with
      | .error e => .error e
      | .ok ys => .ok (y :: ys)
termination_by xs => sizeOf xs
decreasing_by
  all_goals simp_wf
  all_goals omega

/-- The dict comprehension
`{key: _normalize_dict(value) for key, value in sorted(data.items())}`
applied to the already-sorted item list. -/
def normEntries : List (List Char × JVal) →
    Except String (List (List Char × JVal))
  | [] => .ok []
  | (k, v) :: es =>
    match normalize_dict v with
    | .error e => .error e
    | .ok w =>
      match normEntries es with
      | .error e => .error e
      | .ok ws => .ok ((k, w) :: ws)
termination_by es => sizeOf es
decreasing_by
  all_goals simp_wf
  all_goals omega
end

/-- Decimal digits of a natural number. -/
def natRepr (n : Nat) : List Char := Nat.toDigits 10 n

/-- Python `repr` of an int, as serialized by `json.dumps`. -/
def intRepr (n : Int) : List Char :=
  if n < 0 then '-' :: natRepr n.natAbs else natRepr n.natAbs

/-- JSON string escaping of one character (quote and backslash; further
escapes of control characters are irrelevant to every claim, which only
ever compare serializations of equal values). -/
def escapeChar (c : Char) : List Char :=
  if c = '"' ∨ c = '\\' then ['\\', c] else [c]

/-- JSON string escaping. -/
def escapeChars (s : List Char) : List Char :=
  s.foldr (fun c acc => escapeChar c ++ acc) []

/-- The `\x7b` character. -/
def braceL : Char := '\x7b'

/-- The `\x7d` character. -/
def braceR : Char := '\x7d'

mutual
/-- `json.dumps(value, sort_keys=True, separators=(",", ":"))`: one
deterministic byte string, keys sorted lexicographically, no incidental
whitespace. -/
def dumps : JVal → List Char
  | .jnum n => intRepr n
  | .jstr s => '"' :: escapeChars s ++ ['"']
  | .jlist xs => '[' :: dumpsItems xs ++ [']']
  | .jdict es => braceL :: dumpsEntries (sortEntries es) ++ [braceR]
termination_by v => sizeOf v
decreasing_by
  all_goals simp_wf
  all_goals try rw [sortEntries_sizeOf]
  all_goals omega

/-- Comma-separated serialization of list elements. -/
def dumpsItems : List JVal → List Char
  | [] => []
  | [x] => dumps x
  | x :: xs => dumps x ++ ',' :: dumpsItems xs
termination_by xs => sizeOf xs
decreasing_by
  all_goals simp_wf
  all_goals omega

/-- Comma-separated serialization of dict items as `"key":value`. -/
def dumpsEntries : List (List Char × JVal) → List Char
  | [] => []
  | [(k, v)] => '"' :: escapeChars k ++ '"' :: ':' :: dumps v
  | (k, v) :: es => ('"' :: escapeChars k ++ '"' :: ':' :: dumps v) ++ ',' :: dumpsEntries es
termination_by es => sizeOf es
decreasing_by
  all_goals simp_wf
  all_goals omega
end

/-- `hashlib.sha256(...).hexdigest()`, modelled as an abstract
collision-free digest: every claim compares digests only up to equality
and inequality, and the spec treats the digest as an injective
fingerprint, so the model keeps the message itself behind a marker
instead of computing the SHA-256 compression function. -/
def sha256hex (msg : List Char) : List Char := '#' :: msg

/-- `BacktestHashGenerator.hash_strategy_config`: normalize the config
recursively, serialize with `json.dumps(..., sort_keys=True,
separators=(",", ":"))`, digest the UTF-8 bytes. -/
def hash_strategy_config (strategy_config : JVal) : Except String (List Char) :=
  match normalize_dict strategy_config with
  | .error e => .error e
  | .ok normalized => .ok (sha256hex (dumps normalized))

/-- `BacktestHashGenerator.hash_parameters`: same pipeline as
`hash_strategy_config`, written out separately as the source does. -/
def hash_parameters (params : JVal) : Except String (List Char) :=
  match normalize_dict params with
  | .error e => .error e
  | .ok normalized => .ok (sha256hex (dumps normalized))

/-- `BacktestHashGenerator.create_backtest_hash`: digest of
`f"{data_hash}:{strategy_hash}:{params_hash}"`. -/
def create_backtest_hash (data_hash strategy_hash params_hash : List Char) : List Char :=
  sha256hex (data_hash ++ str ":" ++ strategy_hash ++ str ":" ++ params_hash)

/-! ## Data model (`engine/models/backtest_models.py`) -/

/-- `BacktestIdentity` (frozen dataclass): the four digest strings. -/
structure BacktestIdentity : Type where
  data_hash : List Char
  strategy_hash : List Char
  params_hash : List Char
  master_hash : List Char

/-- The validation loop of `BacktestIdentity.__post_init__`: each value
must be a `str` of length exactly 64 (membership in the hex alphabet is
not inspected), else `ValueError` is raised at the first offender. -/
def validateHashes : List (List Char) → Except String Unit
  | [] => .ok ()
  | h :: hs =>
    if h.length = 64 then validateHashes hs
    else .error (String.mk (str "Invalid hash format: " ++ h))

/-- Constructing a `BacktestIdentity` runs `__post_init__` over the four
hash fields in declaration order. -/
def mkBacktestIdentity (data_hash strategy_hash params_hash master_hash : List Char) :
    Except String BacktestIdentity :=
  match validateHashes [data_hash, strategy_hash, params_hash, master_hash] with
  | .error e => .error e
  | .ok _ => .ok ⟨data_hash, strategy_hash, params_hash, master_hash⟩

/-- `BacktestMetadata` (mutable dataclass); `datetime` instants are
abstract ticks. -/
structure BacktestMetadata : Type where
  created_at : Nat
  last_accessed : Nat
  access_count : Int
  execution_time_seconds : Rat
  data_filename : Option (List Char)
  data_size_bytes : Option Int
  data_rows : Int

/-- `BacktestMetadata.mark_accessed`: set `last_accessed` to
`datetime.now()` (the current tick, passed explicitly) and increment
`access_count`. -/
def BacktestMetadata.mark_accessed (m : BacktestMetadata) (now : Nat) : BacktestMetadata :=
  ⟨m.created_at, now, m.access_count + 1, m.execution_time_seconds,
   m.data_filename, m.data_size_bytes, m.data_rows⟩

/-- `BacktestResult` (dataclass): pickled raw results, the summary
statistics dict, the equity-curve rows, the optional trade list. -/
structure BacktestResult : Type where
  raw_results : List Char
  summary : List (List Char × JVal)
  equity_curve : List JVal
  trades : Option (List JVal)

/-- `BacktestRecord`: identity + metadata + results. -/
structure BacktestRecord : Type where
  identity : BacktestIdentity
  metadata : BacktestMetadata
  results : BacktestResult

/-- `BacktestRecord.mark_accessed` delegates to the metadata. -/
def BacktestRecord.mark_accessed (r : BacktestRecord) (now : Nat) : BacktestRecord :=
  ⟨r.identity, r.metadata.mark_accessed now, r.results⟩

/-- Values appearing in the `to_api_dict` response. -/
inductive AVal : Type where
  | avStr : List Char → AVal
  | avInt : Int → AVal
  | avRat : Rat → AVal
  | avEntries : List (List Char × JVal) → AVal
  | avList : List JVal → AVal
  | avOptStr : Option (List Char) → AVal
  | avOptList : Option (List JVal) → AVal

/-- Python attribute lookup on a `BacktestResult` instance: the
dataclass declares exactly the fields `raw_results`, `summary`,
`equity_curve` and `trades`, so lookup succeeds on those names and
raises `AttributeError` on every other name. -/
def BacktestResult.getattr (res : BacktestResult) (name : String) : Except String AVal :=
  if name = "raw_results" then .ok (.avStr res.raw_results)
  else if name = "summary" then .ok (.avEntries res.summary)
  else if name = "equity_curve" then .ok (.avList res.equity_curve)
  else if name = "trades" then .ok (.avOptList res.trades)
  else .error ("AttributeError: BacktestResult object has no attribute " ++ name)

/-- `datetime.isoformat()` of an abstract tick: some fixed injective
date-time text rendering. -/
def isoformat (t : Nat) : List Char := str "iso:" ++ natRepr t

/-- `BacktestRecord.to_api_dict`: the dict literal of the source, with
`self.results.stats` rendered as the attribute lookup it performs. -/
def BacktestRecord.to_api_dict (r : BacktestRecord) :
    Except String (List (String × AVal)) :=
  match r.results.getattr "stats" with
  | .error e => .error e
  | .ok statsVal =>
    .ok [("master_hash", .avStr r.identity.master_hash),
       ("data_hash", .avStr (r.identity.data_hash.take 16 ++ str "...")),
       ("strategy_hash", .avStr (r.identity.strategy_hash.take 16 ++ str "...")),
       ("stats", statsVal),
       ("equity_curve", .avList r.results.equity_curve),
       ("created_at", .avStr (isoformat r.metadata.created_at)),
       ("last_accessed", .avStr (isoformat r.metadata.last_accessed)),
       ("access_count", .avInt r.metadata.access_count),
       ("execution_time_seconds", .avRat r.metadata.execution_time_seconds),
       ("data_filename", .avOptStr r.metadata.data_filename),
       ("data_rows", .avInt r.metadata.data_rows)]

/-- `CacheStats` (dataclass of counters). -/
structure CacheStats : Type where
  total_records : Nat
  total_data_hashes : Nat
  total_strategy_hashes : Nat
  cache_hits : Nat
  cache_misses : Nat
  total_requests : Nat
deriving DecidableEq

/-- The dataclass defaults: every counter starts at 0. -/
def CacheStats.init : CacheStats := ⟨0, 0, 0, 0, 0, 0⟩

/-- `CacheStats.hit_rate`: `cache_hits / total_requests`, 0.0 when there
are no requests. -/
def CacheStats.hit_rate (s : CacheStats) : Rat :=
  if s.total_requests = 0 then 0 else (s.cache_hits : Rat) / (s.total_requests : Rat)

/-- `CacheStats.miss_rate`: `1.0 - hit_rate`. -/
def CacheStats.miss_rate (s : CacheStats) : Rat := 1 - s.hit_rate

/-- `CacheStats.record_hit`: increment `cache_hits` and `total_requests`. -/
def CacheStats.record_hit (s : CacheStats) : CacheStats :=
  ⟨s.total_records, s.total_data_hashes, s.total_strategy_hashes,
   s.cache_hits + 1, s.cache_misses, s.total_requests + 1⟩

/-- `CacheStats.record_miss`: increment `cache_misses` and `total_requests`. -/
def CacheStats.record_miss (s : CacheStats) : CacheStats :=
  ⟨s.total_records, s.total_data_hashes, s.total_strategy_hashes,
   s.cache_hits, s.cache_misses + 1, s.total_requests + 1⟩

/-- `CacheStats` values reachable from default construction by hit/miss
recording. -/
inductive ReachableStats : CacheStats → Prop where
  | init : ReachableStats CacheStats.init
  | hit {s : CacheStats} : ReachableStats s → ReachableStats s.record_hit
  | miss {s : CacheStats} : ReachableStats s → ReachableStats s.record_miss

/-! ## Canonicalization lemmas -/

theorem pylt_dict_left (es : List (List Char × JVal)) (y : JVal) :
    pylt (.jdict es) y = none := by
  cases y <;> simp [pylt]

theorem pylt_dict_right (x : JVal) (es : List (List Char × JVal)) :
    pylt x (.jdict es) = none := by
  cases x <;> simp [pylt]

theorem pylt_some_cls {x y : JVal} {c : Bool} (h : pylt x y = some c) :
    x.cls = y.cls := by
  cases x <;> cases y <;> simp_all [pylt, JVal.cls]

theorem insertP_err {x : JVal} {ys : List JVal} {e : String}
    (h : insertP x ys = .error e) : e = unsortableMsg := by
  induction ys with
  | nil => simp [insertP] at h
  | cons y ys ih =>
    simp only [insertP] at h
    cases hp : pylt x y with
    | none => rw [hp] at h; simp at h; exact h.symm
    | some b =>
      cases b with
      | true => rw [hp] at h; simp at h
      | false =>
        rw [hp] at h
        cases hi : insertP x ys with
        | error e' => rw [hi] at h; simp at h; subst h; exact ih hi
        | ok zs => rw [hi] at h; simp at h

theorem insertP_perm {x : JVal} {ys zs : List JVal} (h : insertP x ys = .ok zs) :
    zs.Perm (x :: ys) := by
  induction ys generalizing zs with
  | nil => simp [insertP] at h; rw [← h]
  | cons y ys ih =>
    simp only [insertP] at h
    cases hp : pylt x y with
    | none => rw [hp] at h; simp at h
    | some b =>
      cases b with
      | true => rw [hp] at h; simp at h; rw [← h]
      | false =>
        rw [hp] at h
        cases hi : insertP x ys with
        | error e' => rw [hi] at h; simp at h
        | ok us =>
          rw [hi] at h; simp at h
          rw [← h]
          exact ((ih hi).cons y).trans (List.Perm.swap x y ys)

theorem sortP_err {xs : List JVal} {e : String} (h : sortP xs = .error e) :
    e = unsortableMsg := by
  induction xs with
  | nil => simp [sortP] at h
  | cons x xs ih =>
    simp only [sortP] at h
    cases hs : sortP xs with
    | error e' => rw [hs] at h; simp at h; subst h; exact ih hs
    | ok ys => rw [hs] at h; exact insertP_err h

theorem sortP_perm {xs ys : List JVal} (h : sortP xs = .ok ys) : ys.Perm xs := by
  induction xs generalizing ys with
  | nil => simp [sortP] at h; rw [← h]
  | cons x xs ih =>
    simp only [sortP] at h
    cases hs : sortP xs with
    | error e => rw [hs] at h; simp at h
    | ok ws =>
      rw [hs] at h
      exact (insertP_perm h).trans ((ih hs).cons x)

theorem insertP_ok_head_cls {x w : JVal} {ws zs : List JVal}
    (h : insertP x (w :: ws) = .ok zs) : x.cls = w.cls := by
  simp only [insertP] at h
  cases hp : pylt x w with
  | none => rw [hp] at h; simp at h
  | some b => exact pylt_some_cls hp

theorem sortP_ok_cls {ys zs : List JVal} (h : sortP ys = .ok zs) :
    ∀ a ∈ ys, ∀ b ∈ ys, a.cls = b.cls := by
  induction ys generalizing zs with
  | nil => intro a ha; cases ha
  | cons y ys ih =>
    simp only [sortP] at h
    cases hs : sortP ys with
    | error e => rw [hs] at h; simp at h
    | ok ws =>
      rw [hs] at h
      have hperm : ws.Perm ys := sortP_perm hs
      have hyws : ∀ b ∈ ys, y.cls = b.cls := by
        intro b hb
        cases hw : ws with
        | nil =>
          subst hw
          rw [hperm.symm.eq_nil] at hb
          cases hb
        | cons w0 ws' =>
          subst hw
          have h0 : y.cls = w0.cls := insertP_ok_head_cls h
          have hw0 : w0 ∈ ys := hperm.subset (List.mem_cons_self w0 ws')
          exact h0.trans (ih hs w0 hw0 b hb)
      intro a ha b hb
      rcases List.mem_cons.mp ha with rfl | ha' <;>
        rcases List.mem_cons.mp hb with h2 | hb'
      · rw [h2]
      · exact hyws b hb'
      · rw [h2]; exact (hyws a ha').symm
      · exact ih hs a ha' b hb'

theorem sortP_dict_err {ys : List JVal} {es : List (List Char × JVal)}
    (hmem : (JVal.jdict es) ∈ ys) (hlen : 2 ≤ ys.length) :
    sortP ys = .error unsortableMsg := by
  induction ys with
  | nil => cases hmem
  | cons y ys ih =>
    simp only [sortP]
    rcases List.mem_cons.mp hmem with rfl | hmem'
    · cases hs : sortP ys with
      | error e => simp [sortP_err hs]
      | ok ws =>
        have hys : ys ≠ [] := by
          intro hnil; rw [hnil] at hlen; simp at hlen
        cases hw : ws with
        | nil =>
          subst hw
          exact absurd (sortP_perm hs).symm.eq_nil hys
        | cons w0 ws' =>
          simp [insertP, pylt_dict_left]
    · cases ys with
      | nil => cases hmem'
      | cons y2 ys2 =>
        cases ys2 with
        | nil =>
          have hy2 : y2 = JVal.jdict es := by
            rcases List.mem_cons.mp hmem' with h2 | h2
            · exact h2.symm
            · cases h2
          have hone : sortP [y2] = .ok [y2] := by simp [sortP, insertP]
          rw [hone, hy2]
          simp [insertP, pylt_dict_right]
        | cons y3 ys3 =>
          have hrec := ih hmem' (by simp)
          rw [hrec]

/-- Every error raised anywhere inside `_normalize_dict` carries the
single message `"Unsortable list items found"` (fuel-indexed form for
the induction). -/
theorem norm_err_fuel : ∀ n : Nat,
    (∀ v : JVal, sizeOf v ≤ n → ∀ e, normalize_dict v = .error e → e = unsortableMsg) ∧
    (∀ xs : List JVal, sizeOf xs ≤ n → ∀ e, normItems xs = .error e → e = unsortableMsg) ∧
    (∀ es : List (List Char × JVal), sizeOf es ≤ n →
      ∀ e, normEntries es = .error e → e = unsortableMsg) := by
  intro n
  induction n using Nat.strong_induction_on with
  | _ n ih =>
    refine ⟨?_, ?_, ?_⟩
    · intro v hv e he
      cases v with
      | jnum m => simp [normalize_dict] at he
      | jstr s => simp [normalize_dict] at he
      | jdict es =>
        simp only [normalize_dict] at he
        have hsz : sizeOf es < n := by
          have := JVal.jdict.sizeOf_spec es; omega
        cases hne : normEntries (sortEntries es) with
        | error e' =>
          rw [hne] at he; simp at he; subst he
          exact (ih (sizeOf es) hsz).2.2 (sortEntries es)
            (le_of_eq (sortEntries_sizeOf es)) _ hne
        | ok fs => rw [hne] at he; simp at he
      | jlist xs =>
        simp only [normalize_dict] at he
        have hsz : sizeOf xs < n := by
          have := JVal.jlist.sizeOf_spec xs; omega
        cases hni : normItems xs with
        | error e' =>
          rw [hni] at he; simp at he; subst he
          exact (ih (sizeOf xs) hsz).2.1 xs (le_refl _) _ hni
        | ok ys =>
          rw [hni] at he; simp at he
          cases hso : sortP ys with
          | error e' => rw [hso] at he; simp at he; subst he; exact sortP_err hso
          | ok zs => rw [hso] at he; simp at he
    · intro xs hxs e he
      cases xs with
      | nil => simp [normItems] at he
      | cons x xs' =>
        simp only [normItems] at he
        have hszx : sizeOf x < n := by
          have := List.cons.sizeOf_spec x xs'; omega
        have hszxs : sizeOf xs' < n := by
          have := List.cons.sizeOf_spec x xs'; omega
        cases hx : normalize_dict x with
        | error e' =>
          rw [hx] at he; simp at he; subst he
          exact (ih (sizeOf x) hszx).1 x (le_refl _) _ hx
        | ok y =>
          rw [hx] at he; simp at he
          cases hxs' : normItems xs' with
          | error e' =>
            rw [hxs'] at he; simp at he; subst he
            exact (ih (sizeOf xs') hszxs).2.1 xs' (le_refl _) _ hxs'
          | ok ys => rw [hxs'] at he; simp at he
    · intro es hes e he
      cases es with
      | nil => simp [normEntries] at he
      | cons kv es' =>
        obtain ⟨k, v⟩ := kv
        simp only [normEntries] at he
        have hszv : sizeOf v < n := by
          have h1 := List.cons.sizeOf_spec (k, v) es'
          have h2 := Prod.mk.sizeOf_spec k v
          omega
        have hszes : sizeOf es' < n := by
          have h1 := List.cons.sizeOf_spec (k, v) es'; omega
        cases hv : normalize_dict v with
        | error e' =>
          rw [hv] at he; simp at he; subst he
          exact (ih (sizeOf v) hszv).1 v (le_refl _) _ hv
        | ok w =>
          rw [hv] at he; simp at he
          cases hes' : normEntries es' with
          | error e' =>
            rw [hes'] at he; simp at he; subst he
            exact (ih (sizeOf es') hszes).2.2 es' (le_refl _) _ hes'
          | ok ws => rw [hes'] at he; simp at he

/-! ## Order lemmas for Python string comparison -/

theorem lexLt_asymm : ∀ {a b : List Char}, lexLt a b = true → lexLt b a = false := by
  intro a
  induction a with
  | nil =>
    intro b h
    cases b with
    | nil => simp [lexLt] at h
    | cons c bs => simp [lexLt]
  | cons c as ih =>
    intro b h
    cases b with
    | nil => simp [lexLt] at h
    | cons d bs =>
      simp only [lexLt] at h ⊢
      by_cases h1 : c < d
      · have h2 : ¬ d < c := lt_asymm h1
        simp [h1, h2]
      · by_cases h2 : d < c
        · simp [h1, h2] at h
        · simp [h1, h2] at h ⊢
          exact ih h

theorem lexLt_conn : ∀ {a b : List Char}, lexLt a b = false → lexLt b a = false →
    a = b := by
  intro a
  induction a with
  | nil =>
    intro b h1 h2
    cases b with
    | nil => rfl
    | cons c bs => simp [lexLt] at h1
  | cons c as ih =>
    intro b h1 h2
    cases b with
    | nil => simp [lexLt] at h2
    | cons d bs =>
      simp only [lexLt] at h1 h2
      by_cases hcd : c < d
      · simp [hcd] at h1
      · by_cases hdc : d < c
        · simp [hdc] at h2
        · have hc : c = d := le_antisymm (not_lt.mp hdc) (not_lt.mp hcd)
          simp [hcd, hdc] at h1 h2
          rw [hc, ih h1 h2]

theorem lexLt_trans : ∀ {a b c : List Char}, lexLt a b = true → lexLt b c = true →
    lexLt a c = true := by
  intro a
  induction a with
  | nil =>
    intro b c h1 h2
    cases b with
    | nil => simp [lexLt] at h1
    | cons d bs =>
      cases c with
      | nil => simp [lexLt] at h2
      | cons e cs => simp [lexLt]
  | cons x as ih =>
    intro b c h1 h2
    cases b with
    | nil => simp [lexLt] at h1
    | cons y bs =>
      cases c with
      | nil => simp [lexLt] at h2
      | cons z cs =>
        simp only [lexLt] at h1 h2 ⊢
        by_cases hxy : x < y
        · by_cases hyz : y < z
          · simp [lt_trans hxy hyz]
          · by_cases hzy : z < y
            · simp [hyz, hzy] at h2
            · have hyz' : y = z := le_antisymm (not_lt.mp hzy) (not_lt.mp hyz)
              rw [← hyz']
              simp [hxy]
        · by_cases hyx : y < x
          · simp [hxy, hyx] at h1
          · have hxy' : x = y := le_antisymm (not_lt.mp hyx) (not_lt.mp hxy)
            simp [hxy, hyx] at h1
            by_cases hyz : y < z
            · rw [hxy']; simp [hyz]
            · by_cases hzy : z < y
              · simp [hyz, hzy] at h2
              · have hyz' : y = z := le_antisymm (not_lt.mp hzy) (not_lt.mp hyz)
                simp [hyz, hzy] at h2
                have hxz : ¬ x < z := by rw [hxy', hyz']; exact lt_irrefl z
                have hzx : ¬ z < x := by rw [hxy', hyz']; exact lt_irrefl z
                simp [hxz, hzx]
                exact ih h1 h2

/-! ## The sorted orders of claim C2, stated per element class -/

/-- Insertion into an int list sorted the way the model sort places
ints (before the first strictly greater element). -/
def insNum (a : Int) : List Int → List Int
  | [] => [a]
  | b :: bs => if a < b then a :: b :: bs else b :: insNum a bs

/-- The int sort mirrored out of `sortP`. -/
def sortNums : List Int → List Int
  | [] => []
  | a :: as => insNum a (sortNums as)

/-- Insertion into a string list sorted by Python string `<`. -/
def insStr (a : List Char) : List (List Char) → List (List Char)
  | [] => [a]
  | b :: bs => if lexLt a b then a :: b :: bs else b :: insStr a bs

/-- The string sort mirrored out of `sortP`. -/
def sortStrs : List (List Char) → List (List Char)
  | [] => []
  | a :: as => insStr a (sortStrs as)

/-- Non-strict Python string order: `a ≤ b` iff not `b < a`. -/
def leStr (a b : List Char) : Prop := lexLt b a = false

theorem insNum_perm (a : Int) (ms : List Int) : (insNum a ms).Perm (a :: ms) := by
  induction ms with
  | nil => simp [insNum]
  | cons m ms ih =>
    simp only [insNum]
    by_cases h : a < m
    · simp [h]
    · simp only [h, if_false]
      exact ((ih.cons m).trans (List.Perm.swap a m ms)).symm.symm

theorem insNum_sorted {ms : List Int} (h : ms.Sorted (· ≤ ·)) (a : Int) :
    (insNum a ms).Sorted (· ≤ ·) := by
  induction ms with
  | nil => simp [insNum]
  | cons m ms ih =>
    rw [List.sorted_cons] at h
    obtain ⟨hm, hms⟩ := h
    simp only [insNum]
    by_cases hc : a < m
    · rw [if_pos hc, List.sorted_cons]
      refine ⟨?_, List.sorted_cons.mpr ⟨hm, hms⟩⟩
      intro b hb
      rcases List.mem_cons.mp hb with rfl | hb'
      · exact le_of_lt hc
      · exact le_trans (le_of_lt hc) (hm b hb')
    · rw [if_neg hc, List.sorted_cons]
      refine ⟨?_, ih hms⟩
      intro b hb
      rcases List.mem_cons.mp ((insNum_perm a ms).subset hb) with rfl | hb'
      · exact not_lt.mp hc
      · exact hm b hb'

theorem sortNums_perm (ns : List Int) : (sortNums ns).Perm ns := by
  induction ns with
  | nil => simp [sortNums]
  | cons n ns ih => exact (insNum_perm n (sortNums ns)).trans (ih.cons n)

theorem sortNums_sorted (ns : List Int) : (sortNums ns).Sorted (· ≤ ·) := by
  induction ns with
  | nil => simp [sortNums]
  | cons n ns ih => exact insNum_sorted ih n

theorem insStr_perm (a : List Char) (ms : List (List Char)) :
    (insStr a ms).Perm (a :: ms) := by
  induction ms with
  | nil => simp [insStr]
  | cons m ms ih =>
    simp only [insStr]
    by_cases h : lexLt a m = true
    · simp [h]
    · simp only [h, Bool.false_eq_true, if_false]
      exact ((ih.cons m).trans (List.Perm.swap a m ms)).symm.symm

theorem insStr_sorted {ms : List (List Char)} (h : ms.Sorted leStr) (a : List Char) :
    (insStr a ms).Sorted leStr := by
  induction ms with
  | nil => simp [insStr, List.sorted_singleton]
  | cons m ms ih =>
    rw [List.sorted_cons] at h
    obtain ⟨hm, hms⟩ := h
    simp only [insStr]
    by_cases hc : lexLt a m = true
    · simp only [hc, if_true]
      rw [List.sorted_cons]
      refine ⟨?_, List.sorted_cons.mpr ⟨hm, hms⟩⟩
      intro b hb
      rcases List.mem_cons.mp hb with rfl | hb'
      · exact lexLt_asymm hc
      · show lexLt b a = false
        cases hba : lexLt b a with
        | false => rfl
        | true =>
          have hbm : lexLt b m = true := lexLt_trans hba hc
          have := hm b hb'
          simp [leStr] at this
          simp [this] at hbm
    · have hcf : lexLt a m = false := by simpa using hc
      simp only [hc, Bool.false_eq_true, if_false]
      rw [List.sorted_cons]
      refine ⟨?_, ih hms⟩
      intro b hb
      rcases List.mem_cons.mp ((insStr_perm a ms).subset hb) with rfl | hb'
      · exact hcf
      · exact hm b hb'

theorem sortStrs_perm (ss : List (List Char)) : (sortStrs ss).Perm ss := by
  induction ss with
  | nil => simp [sortStrs]
  | cons s ss ih => exact (insStr_perm s (sortStrs ss)).trans (ih.cons s)

theorem sortStrs_sorted (ss : List (List Char)) : (sortStrs ss).Sorted leStr := by
  induction ss with
  | nil => simp [sortStrs]
  | cons s ss ih => exact insStr_sorted ih s

/-! ## What the model sort does on homogeneous lists -/

theorem normItems_map_num (ns : List Int) :
    normItems (ns.map .jnum) = .ok (ns.map .jnum) := by
  induction ns with
  | nil => simp [normItems]
  | cons n ns ih => simp [normItems, normalize_dict, ih]

theorem insertP_map_num (a : Int) (ms : List Int) :
    insertP (.jnum a) (ms.map .jnum) = .ok ((insNum a ms).map .jnum) := by
  induction ms with
  | nil => simp [insertP, insNum]
  | cons m ms ih =>
    simp only [List.map_cons, insertP, pylt]
    by_cases hc : a < m
    · simp [hc, insNum]
    · simp [hc, insNum, ih]

theorem sortP_map_num (ns : List Int) :
    sortP (ns.map .jnum) = .ok ((sortNums ns).map .jnum) := by
  induction ns with
  | nil => simp [sortP, sortNums]
  | cons n ns ih =>
    simp only [List.map_cons, sortP, ih, sortNums]
    exact insertP_map_num n (sortNums ns)

theorem normItems_map_str (ss : List (List Char)) :
    normItems (ss.map .jstr) = .ok (ss.map .jstr) := by
  induction ss with
  | nil => simp [normItems]
  | cons s ss ih => simp [normItems, normalize_dict, ih]

theorem insertP_map_str (a : List Char) (ms : List (List Char)) :
    insertP (.jstr a) (ms.map .jstr) = .ok ((insStr a ms).map .jstr) := by
  induction ms with
  | nil => simp [insertP, insStr]
  | cons m ms ih =>
    simp only [List.map_cons, insertP, pylt]
    cases hc : lexLt a m with
    | true => simp [hc, insStr]
    | false => simp [hc, insStr, ih]

theorem sortP_map_str (ss : List (List Char)) :
    sortP (ss.map .jstr) = .ok ((sortStrs ss).map .jstr) := by
  induction ss with
  | nil => simp [sortP, sortStrs]
  | cons s ss ih =>
    simp only [List.map_cons, sortP, ih, sortStrs]
    exact insertP_map_str s (sortStrs ss)

/-! ## Structure of successful normalization -/

theorem normItems_forall2 {xs ys : List JVal} (h : normItems xs = .ok ys) :
    List.Forall₂ (fun x y => normalize_dict x = .ok y) xs ys := by
  induction xs generalizing ys with
  | nil => simp [normItems] at h; subst h; exact List.Forall₂.nil
  | cons x xs ih =>
    simp only [normItems] at h
    cases hx : normalize_dict x with
    | error e => rw [hx] at h; simp at h
    | ok y =>
      rw [hx] at h; simp at h
      cases hxs : normItems xs with
      | error e => rw [hxs] at h; simp at h
      | ok ys' =>
        rw [hxs] at h; simp at h
        rw [← h]
        exact List.Forall₂.cons hx (ih hxs)

theorem norm_cls {x y : JVal} (h : normalize_dict x = .ok y) : y.cls = x.cls := by
  cases x with
  | jnum n => simp [normalize_dict] at h; rw [← h]
  | jstr s => simp [normalize_dict] at h; rw [← h]
  | jlist xs =>
    simp only [normalize_dict] at h
    cases hni : normItems xs with
    | error e => rw [hni] at h; simp at h
    | ok ys =>
      rw [hni] at h; simp at h
      cases hso : sortP ys with
      | error e => rw [hso] at h; simp at h
      | ok zs => rw [hso] at h; simp at h; rw [← h]; rfl
  | jdict es =>
    simp only [normalize_dict] at h
    cases hne : normEntries (sortEntries es) with
    | error e => rw [hne] at h; simp at h
    | ok fs => rw [hne] at h; simp at h; rw [← h]; rfl

theorem norm_dict_shape {es : List (List Char × JVal)} {w : JVal}
    (h : normalize_dict (.jdict es) = .ok w) : ∃ fs, w = JVal.jdict fs := by
  simp only [normalize_dict] at h
  cases hne : normEntries (sortEntries es) with
  | error e => rw [hne] at h; simp at h
  | ok fs => rw [hne] at h; simp at h; exact ⟨fs, h.symm⟩

theorem forall2_mem_left {R : JVal → JVal → Prop} {xs ys : List JVal}
    (h : List.Forall₂ R xs ys) {x : JVal} (hx : x ∈ xs) :
    ∃ y ∈ ys, R x y := by
  induction h with
  | nil => cases hx
  | cons hr _ ih =>
    rcases List.mem_cons.mp hx with rfl | hx'
    · exact ⟨_, List.mem_cons_self _ _, hr⟩
    · obtain ⟨y, hy, hry⟩ := ih hx'
      exact ⟨y, List.mem_cons_of_mem _ hy, hry⟩

/-! ## Claim theorems: canonicalization of lists -/

/-- C2 (counterexample): the claim says canonicalizing a list of
mappings does not fail, but Python dicts admit no `<`, so sorting the
two-element list `[{}, {}]` raises the unsortable `TypeError`. -/
theorem C2_counterexample :
    normalize_dict (.jlist [.jdict [], .jdict []]) = .error unsortableMsg := by
  simp [normalize_dict, normItems, normEntries, sortEntries, sortP, insertP, pylt]

/-- C2 (amended): homogeneous lists of numbers and of strings are
canonicalized to their recursively normalized elements sorted by the
stated order (numbers by value, strings lexicographically); a list
holding two or more mappings, however, fails with the unsortable-list
error, because mappings admit no order at all — not even among
themselves. -/
theorem C2_list_sorting :
    (∀ ns : List Int, ∃ ms : List Int, ms.Perm ns ∧ ms.Sorted (· ≤ ·) ∧
        normalize_dict (.jlist (ns.map .jnum)) = .ok (.jlist (ms.map .jnum))) ∧
    (∀ ss : List (List Char), ∃ ts : List (List Char), ts.Perm ss ∧ ts.Sorted leStr ∧
        normalize_dict (.jlist (ss.map .jstr)) = .ok (.jlist (ts.map .jstr))) ∧
    (∀ (e₁ e₂ : List (List Char × JVal)) (rest : List JVal),
        normalize_dict (.jlist (.jdict e₁ :: .jdict e₂ :: rest)) =
          .error unsortableMsg) := by
  refine ⟨?_, ?_, ?_⟩
  · intro ns
    refine ⟨sortNums ns, sortNums_perm ns, sortNums_sorted ns, ?_⟩
    simp [normalize_dict, normItems_map_num, sortP_map_num]
  · intro ss
    refine ⟨sortStrs ss, sortStrs_perm ss, sortStrs_sorted ss, ?_⟩
    simp [normalize_dict, normItems_map_str, sortP_map_str]
  · intro e₁ e₂ rest
    simp only [normalize_dict]
    cases hni : normItems (.jdict e₁ :: .jdict e₂ :: rest) with
    | error e =>
      simp [hni, (norm_err_fuel (sizeOf (JVal.jdict e₁ :: JVal.jdict e₂ :: rest))).2.1 _
        (le_refl _) e hni]
    | ok ys =>
      have hf := normItems_forall2 hni
      rcases List.forall₂_cons_left_iff.mp hf with ⟨y1, ys1, hR1, hf', rfl⟩
      rcases List.forall₂_cons_left_iff.mp hf' with ⟨y2, ys2, hR2, hf'', rfl⟩
      obtain ⟨fs1, rfl⟩ := norm_dict_shape hR1
      have hmem : JVal.jdict fs1 ∈ JVal.jdict fs1 :: y2 :: ys2 :=
        List.mem_cons_self _ _
      have hlen : 2 ≤ (JVal.jdict fs1 :: y2 :: ys2).length := by simp
      simp [hni, sortP_dict_err hmem hlen]

/-- C3: a list mixing element types with no cross-type order (two
elements of different Python classes) always fails canonicalization
with the unsortable-list error and returns no result. -/
theorem C3_mixed_list_unsortable (xs : List JVal) (x y : JVal)
    (hx : x ∈ xs) (hy : y ∈ xs) (hcls : x.cls ≠ y.cls) :
    normalize_dict (.jlist xs) = .error unsortableMsg := by
  simp only [normalize_dict]
  cases hni : normItems xs with
  | error e =>
    simp [hni, (norm_err_fuel (sizeOf xs)).2.1 xs (le_refl _) e hni]
  | ok ys =>
    have hf := normItems_forall2 hni
    obtain ⟨x', hx', hxr⟩ := forall2_mem_left hf hx
    obtain ⟨y', hy', hyr⟩ := forall2_mem_left hf hy
    have hcls' : x'.cls ≠ y'.cls := by
      rw [norm_cls hxr, norm_cls hyr]; exact hcls
    cases hso : sortP ys with
    | error e => simp [hni, hso, sortP_err hso]
    | ok zs => exact absurd (sortP_ok_cls hso x' hx' y' hy') hcls'

/-- C3 (witness): the heterogeneous list `[1, "a"]`. -/
theorem C3_witness :
    normalize_dict (.jlist [.jnum 1, .jstr (str "a")]) = .error unsortableMsg :=
  C3_mixed_list_unsortable [.jnum 1, .jstr (str "a")] (.jnum 1) (.jstr (str "a"))
    (List.mem_cons_self _ _) (by simp) (by simp [JVal.cls])

/-! ## Key-permutation invariance of normalization (claim C1) -/

/-- Strict order on dict items by key. -/
def keyLt (a b : List Char × JVal) : Prop := lexLt a.1 b.1 = true

/-- Non-strict order on dict items by key. -/
def keyLe (a b : List Char × JVal) : Prop := lexLt b.1 a.1 = false

/-- Two dict items with the same key whose values normalize equally. -/
def entryRel (a b : List Char × JVal) : Prop :=
  a.1 = b.1 ∧ normalize_dict a.2 = normalize_dict b.2

mutual
/-- Deep permutation equivalence: `b` is `a` with the items of mappings
reordered at any nesting depth.  The `dict` rule relates an item list
pointwise (same keys in the same positions, values deep-equivalent) and
then permutes it; as for every Python dict, the keys carry no
duplicates. -/
inductive PEquiv : JVal → JVal → Prop where
  | num (n : Int) : PEquiv (.jnum n) (.jnum n)
  | str (s : List Char) : PEquiv (.jstr s) (.jstr s)
  | lnil : PEquiv (.jlist []) (.jlist [])
  | lcons {x y : JVal} {xs ys : List JVal} :
      PEquiv x y → PEquiv (.jlist xs) (.jlist ys) →
      PEquiv (.jlist (x :: xs)) (.jlist (y :: ys))
  | dict {es fs gs : List (List Char × JVal)} :
      PEntries es fs → (es.map Prod.fst).Nodup → fs.Perm gs →
      PEquiv (.jdict es) (.jdict gs)

/-- Pointwise deep equivalence of dict item lists. -/
inductive PEntries : List (List Char × JVal) → List (List Char × JVal) → Prop where
  | nil : PEntries [] []
  | cons {k : List Char} {v w : JVal} {es fs : List (List Char × JVal)} :
      PEquiv v w → PEntries es fs → PEntries ((k, v) :: es) ((k, w) :: fs)
end

theorem insEntry_sorted {fs : List (List Char × JVal)} (h : fs.Sorted keyLe)
    (e : List Char × JVal) : (insEntry e fs).Sorted keyLe := by
  induction fs with
  | nil => simp [insEntry, List.sorted_singleton]
  | cons f fs ih =>
    rw [List.sorted_cons] at h
    obtain ⟨hf, hfs⟩ := h
    simp only [insEntry]
    by_cases hc : lexLt e.1 f.1 = true
    · simp only [hc, if_true]
      rw [List.sorted_cons]
      refine ⟨?_, List.sorted_cons.mpr ⟨hf, hfs⟩⟩
      intro b hb
      rcases List.mem_cons.mp hb with rfl | hb'
      · exact lexLt_asymm hc
      · show lexLt b.1 e.1 = false
        cases hba : lexLt b.1 e.1 with
        | false => rfl
        | true =>
          have hbf : lexLt b.1 f.1 = true := lexLt_trans hba hc
          have := hf b hb'
          simp [keyLe] at this
          simp [this] at hbf
    · have hcf : lexLt e.1 f.1 = false := by simpa using hc
      simp only [hc, Bool.false_eq_true, if_false]
      rw [List.sorted_cons]
      refine ⟨?_, ih hfs⟩
      intro b hb
      rcases List.mem_cons.mp ((insEntry_perm e fs).subset hb) with rfl | hb'
      · exact hcf
      · exact hf b hb'

theorem sortEntries_sorted (es : List (List Char × JVal)) :
    (sortEntries es).Sorted keyLe := by
  induction es with
  | nil => simp [sortEntries]
  | cons e es ih => exact insEntry_sorted ih e

theorem sorted_keyLt_of_nodup {l : List (List Char × JVal)} (hs : l.Sorted keyLe)
    (hnd : (l.map Prod.fst).Nodup) : l.Sorted keyLt := by
  have hne : l.Pairwise (fun a b => a.1 ≠ b.1) := List.pairwise_map.mp hnd
  refine (hs.and hne).imp ?_
  intro a b hab
  obtain ⟨hle, hne'⟩ := hab
  cases hl : lexLt a.1 b.1 with
  | true => exact hl
  | false => exact absurd (lexLt_conn hl hle) hne'

theorem sortEntries_eq_of_perm {es fs : List (List Char × JVal)} (h : es.Perm fs)
    (hnd : (es.map Prod.fst).Nodup) : sortEntries es = sortEntries fs := by
  haveI : IsAntisymm (List Char × JVal) keyLt :=
    ⟨fun a b h1 h2 => absurd h2 (by simp [keyLt, lexLt_asymm h1])⟩
  have hnd_fs : (fs.map Prod.fst).Nodup := ((h.map Prod.fst).nodup_iff).mp hnd
  have hp : (sortEntries es).Perm (sortEntries fs) :=
    (sortEntries_perm es).trans (h.trans (sortEntries_perm fs).symm)
  have hs1 : (sortEntries es).Sorted keyLt :=
    sorted_keyLt_of_nodup (sortEntries_sorted es)
      (((sortEntries_perm es).map Prod.fst).nodup_iff.mpr hnd)
  have hs2 : (sortEntries fs).Sorted keyLt :=
    sorted_keyLt_of_nodup (sortEntries_sorted fs)
      (((sortEntries_perm fs).map Prod.fst).nodup_iff.mpr hnd_fs)
  exact List.eq_of_perm_of_sorted hp hs1 hs2

theorem nrel_keys {es fs : List (List Char × JVal)}
    (h : List.Forall₂ entryRel es fs) : es.map Prod.fst = fs.map Prod.fst := by
  induction h with
  | nil => rfl
  | cons hr _ ih => simp [hr.1, ih]

theorem nrel_insEntry {a b : List Char × JVal} (hab : entryRel a b) :
    ∀ {es fs : List (List Char × JVal)}, List.Forall₂ entryRel es fs →
      List.Forall₂ entryRel (insEntry a es) (insEntry b fs) := by
  intro es fs h
  induction h with
  | nil => exact .cons hab .nil
  | @cons e f es' fs' hr hrest ih =>
    simp only [insEntry]
    rw [← hab.1, ← hr.1]
    by_cases hc : lexLt a.1 e.1 = true
    · simp only [hc, if_true]
      exact .cons hab (.cons hr hrest)
    · simp only [hc, Bool.false_eq_true, if_false]
      exact .cons hr ih

theorem nrel_sortEntries : ∀ {es fs : List (List Char × JVal)},
    List.Forall₂ entryRel es fs →
      List.Forall₂ entryRel (sortEntries es) (sortEntries fs) := by
  intro es fs h
  induction h with
  | nil => exact .nil
  | cons hr _ ih =>
    simp only [sortEntries]
    exact nrel_insEntry hr ih

theorem nrel_normEntries : ∀ {es fs : List (List Char × JVal)},
    List.Forall₂ entryRel es fs → normEntries es = normEntries fs := by
  intro es fs h
  induction h with
  | nil => rfl
  | @cons e f es' fs' hr hrest ih =>
    obtain ⟨k1, v1⟩ := e
    obtain ⟨k2, v2⟩ := f
    obtain ⟨hk, hv⟩ := hr
    simp only at hk hv
    simp only [normEntries]
    rw [hk, hv, ih]

/-- The part of `_normalize_dict` on lists before tagging: elements
normalized, then sorted. -/
def normSort (xs : List JVal) : Except String (List JVal) :=
  match normItems xs with
  | .error e => .error e
  | .ok ys => sortP ys

theorem normalize_jlist (xs : List JVal) :
    normalize_dict (.jlist xs) =
      match normSort xs with
      | .error e => .error e
      | .ok zs => .ok (.jlist zs) := by
  simp only [normalize_dict, normSort]
  cases h : normItems xs with
  | error e => rfl
  | ok ys => rfl

theorem normSort_inj {xs ys : List JVal}
    (h : normalize_dict (.jlist xs) = normalize_dict (.jlist ys)) :
    normSort xs = normSort ys := by
  rw [normalize_jlist, normalize_jlist] at h
  cases h1 : normSort xs with
  | error e =>
    cases h2 : normSort ys with
    | error e' => rw [h1, h2] at h; simp at h; rw [h]
    | ok zs => rw [h1, h2] at h; simp at h
  | ok zs =>
    cases h2 : normSort ys with
    | error e' => rw [h1, h2] at h; simp at h
    | ok zs' => rw [h1, h2] at h; simp at h; rw [h]

theorem normSort_cons (x : JVal) (xs : List JVal) :
    normSort (x :: xs) =
      match normalize_dict x with
      | .error e => .error e
      | .ok y =>
        match normSort xs with
        | .error e => .error e
        | .ok ws => insertP y ws := by
  simp only [normSort, normItems]
  cases hx : normalize_dict x with
  | error e => rfl
  | ok y =>
    cases hxs : normItems xs with
    | error e => rfl
    | ok ys => rfl

theorem pentries_nrel (n : Nat)
    (ihv : ∀ a b : JVal, sizeOf a < n → PEquiv a b →
      normalize_dict a = normalize_dict b) :
    ∀ es fs : List (List Char × JVal), PEntries es fs → sizeOf es < n →
      List.Forall₂ entryRel es fs := by
  intro es
  induction es with
  | nil =>
    intro fs h _
    cases h
    exact .nil
  | cons e es ih =>
    intro fs h hsz
    obtain ⟨k, v⟩ := e
    cases h with
    | cons hvw hrest =>
      have h1 := List.cons.sizeOf_spec (k, v) es
      have h2 := Prod.mk.sizeOf_spec k v
      exact List.Forall₂.cons ⟨rfl, ihv v _ (by omega) hvw⟩ (ih _ hrest (by omega))

theorem pequiv_norm_fuel : ∀ n : Nat, ∀ a b : JVal, sizeOf a ≤ n → PEquiv a b →
    normalize_dict a = normalize_dict b := by
  intro n
  induction n using Nat.strong_induction_on with
  | _ n ihn =>
    intro a b hle h
    cases h with
    | num m => rfl
    | str s => rfl
    | lnil => rfl
    | @lcons x y xs ys hxy hxs =>
      have hspec1 := JVal.jlist.sizeOf_spec (x :: xs)
      have hspec2 := List.cons.sizeOf_spec x xs
      have hspec3 := JVal.jlist.sizeOf_spec xs
      have ih1 : normalize_dict x = normalize_dict y :=
        ihn (sizeOf x) (by omega) x y (le_refl _) hxy
      have ih2 : normalize_dict (.jlist xs) = normalize_dict (.jlist ys) :=
        ihn (sizeOf (JVal.jlist xs)) (by omega) _ _ (le_refl _) hxs
      rw [normalize_jlist, normalize_jlist, normSort_cons, normSort_cons, ih1,
        normSort_inj ih2]
    | @dict es fs gs hpe hnd hperm =>
      have hspec := JVal.jdict.sizeOf_spec es
      have hnr : List.Forall₂ entryRel es fs :=
        pentries_nrel n (fun a' b' hlt hp => ihn (sizeOf a') hlt a' b' (le_refl _) hp)
          es fs hpe (by omega)
      have hnd_fs : (fs.map Prod.fst).Nodup := nrel_keys hnr ▸ hnd
      have hse : sortEntries fs = sortEntries gs := sortEntries_eq_of_perm hperm hnd_fs
      have hne : normEntries (sortEntries es) = normEntries (sortEntries fs) :=
        nrel_normEntries (nrel_sortEntries hnr)
      simp only [normalize_dict]
      rw [hne, hse]

/-- C1: hashing is invariant under reordering mapping items at any
nesting depth: whenever canonicalization succeeds on `m` and `m'` is a
deep key-permutation of `m`, both canonicalize identically and hash to
the same digest. -/
theorem C1_hash_key_permutation (m m' : JVal) (hp : PEquiv m m') (w : JVal)
    (hw : normalize_dict m = .ok w) :
    hash_strategy_config m = hash_strategy_config m' := by
  simp only [hash_strategy_config]
  rw [pequiv_norm_fuel (sizeOf m) m m' (le_refl _) hp]

/-- The two-key strategy config of the repository's own test. -/
def cfg1 : JVal := .jdict [(str "fast", .jnum 10), (str "slow", .jnum 20)]

/-- The same mapping with its items in the opposite order. -/
def cfg2 : JVal := .jdict [(str "slow", .jnum 20), (str "fast", .jnum 10)]

/-- C1 (witness): the reordered two-key config hashes identically. -/
theorem C1_witness : hash_strategy_config cfg1 = hash_strategy_config cfg2 :=
  C1_hash_key_permutation cfg1 cfg2
    (PEquiv.dict
      (PEntries.cons (PEquiv.num 10) (PEntries.cons (PEquiv.num 20) PEntries.nil))
      (by decide)
      (List.Perm.swap (str "slow", JVal.jnum 20) (str "fast", JVal.jnum 10) []))
    (.jdict [(str "fast", .jnum 10), (str "slow", .jnum 20)])
    (by simp +decide [cfg1, normalize_dict, normEntries, sortEntries, insEntry,
      str, lexLt])

/-- C7: `hash_parameters` and `hash_strategy_config` compute the same
function: whenever canonicalization succeeds, both run the same
normalize-serialize-digest pipeline. -/
theorem C7_hash_functions_equal (v w : JVal) (h : normalize_dict v = .ok w) :
    hash_parameters v = hash_strategy_config v := rfl

/-- C7 (witness): the empty mapping. -/
theorem C7_witness : hash_parameters (.jdict []) = hash_strategy_config (.jdict []) :=
  C7_hash_functions_equal (.jdict []) (.jdict [])
    (by simp [normalize_dict, normEntries, sortEntries])

/-! ## Hash-string helpers -/

/-- Membership in the hexadecimal alphabet. -/
def isHexChar (c : Char) : Bool :=
  c.isDigit || (('a' ≤ c && c ≤ 'f') || ('A' ≤ c && c ≤ 'F'))

/-- A string drawn entirely from the hexadecimal alphabet. -/
def allHex (l : List Char) : Bool := l.all isHexChar

theorem colon_not_mem {l : List Char} (h : allHex l = true) : ':' ∉ l := by
  intro hm
  have hc : isHexChar ':' = true := List.all_eq_true.mp h _ hm
  exact absurd hc (by decide)

theorem append_colon_inj {a b u v : List Char} (ha : ':' ∉ a) (hb : ':' ∉ b)
    (h : a ++ ':' :: u = b ++ ':' :: v) : a = b ∧ u = v := by
  induction a generalizing b with
  | nil =>
    cases b with
    | nil => simpa using h
    | cons c bs =>
      simp only [List.nil_append, List.cons_append, List.cons.injEq] at h
      exact absurd (h.1 ▸ List.mem_cons_self c bs) hb
  | cons c as ih =>
    cases b with
    | nil =>
      simp only [List.nil_append, List.cons_append, List.cons.injEq] at h
      exact absurd (h.1 ▸ List.mem_cons_self c as) ha
    | cons c2 bs =>
      simp only [List.cons_append, List.cons.injEq] at h
      have ha' : ':' ∉ as := fun hm => ha (List.mem_cons_of_mem c hm)
      have hb' : ':' ∉ bs := fun hm => hb (List.mem_cons_of_mem c2 hm)
      obtain ⟨he, ht⟩ := ih ha' hb' h.2
      exact ⟨by rw [h.1, he], ht⟩

/-! ## Claim theorems: identity, stats, record, master hash -/

/-- C4 (counterexample): the claim says construction succeeds only for
64 **hexadecimal** characters, but the string of 64 `z`s is accepted:
`__post_init__` checks only `isinstance(…, str)` and `len(…) == 64`. -/
theorem C4_counterexample :
    (∃ i, mkBacktestIdentity (List.replicate 64 'z') (List.replicate 64 'z')
        (List.replicate 64 'z') (List.replicate 64 'z') = Except.ok i) ∧
      allHex (List.replicate 64 'z') = false :=
  ⟨⟨_, rfl⟩, by decide⟩

/-- C4 (amended): `BacktestIdentity` construction succeeds iff each of
the four strings has length exactly 64; any other length is rejected
with an error at construction time (the hex alphabet is not checked). -/
theorem C4_identity_validation (d s p m : List Char) :
    (∃ i, mkBacktestIdentity d s p m = Except.ok i) ↔
      (d.length = 64 ∧ s.length = 64 ∧ p.length = 64 ∧ m.length = 64) := by
  simp only [mkBacktestIdentity, validateHashes]
  split_ifs with h1 h2 h3 h4 <;> simp_all [Except.map]

/-- C5: `create_backtest_hash` digests the `:`-joined concatenation in
the fixed order data:strategy:params, and for hex-alphabet digests the
joined string determines the pair, so swapping distinct data and
strategy hashes changes the master hash. -/
theorem C5_create_backtest_hash (d s p : List Char) :
    create_backtest_hash d s p = sha256hex (d ++ str ":" ++ s ++ str ":" ++ p) ∧
      (allHex d = true → allHex s = true → d ≠ s →
        create_backtest_hash d s p ≠ create_backtest_hash s d p) := by
  refine ⟨rfl, fun hd hs hne heq => ?_⟩
  have h1 : d ++ str ":" ++ s ++ str ":" ++ p = s ++ str ":" ++ d ++ str ":" ++ p := by
    simpa [create_backtest_hash, sha256hex] using heq
  have h2 : d ++ ':' :: (s ++ ':' :: p) = s ++ ':' :: (d ++ ':' :: p) := by
    have hcolon : str ":" = [':'] := rfl
    simpa [hcolon, List.append_assoc] using h1
  exact hne (append_colon_inj (colon_not_mem hd) (colon_not_mem hs) h2).1

/-- C5 (witness): concrete hex digests, swapped order, distinct hashes. -/
theorem C5_witness :
    create_backtest_hash (str "ab") (str "cd") (str "ef") ≠
      create_backtest_hash (str "cd") (str "ab") (str "ef") :=
  (C5_create_backtest_hash (str "ab") (str "cd") (str "ef")).2
    (by decide) (by decide) (by decide)

/-- C6 (counterexample): with no requests the claim expects
`miss_rate = 0`, but `miss_rate = 1.0 - hit_rate` evaluates to 1. -/
theorem C6_counterexample :
    CacheStats.init.total_requests = 0 ∧ CacheStats.init.miss_rate ≠ 0 := by
  refine ⟨rfl, ?_⟩
  norm_num [CacheStats.miss_rate, CacheStats.hit_rate, CacheStats.init]

/-- C6 (amended): when `total_requests = 0`, the derived `hit_rate` is 0
and the derived `miss_rate` is `1 - 0 = 1` (not 0). -/
theorem C6_rates_no_requests (s : CacheStats) (h : s.total_requests = 0) :
    s.hit_rate = 0 ∧ s.miss_rate = 1 := by
  constructor
  · simp [CacheStats.hit_rate, h]
  · simp [CacheStats.miss_rate, CacheStats.hit_rate, h]

/-- C6 (witness): the default-constructed stats. -/
theorem C6_witness : CacheStats.init.hit_rate = 0 ∧ CacheStats.init.miss_rate = 1 :=
  C6_rates_no_requests CacheStats.init rfl

/-- C8: the claim describes `to_api_dict` returning the summary view,
but the code reads `self.results.stats` while the `BacktestResult`
dataclass names that field `summary`, so every call raises
`AttributeError` and no view is ever returned. -/
theorem C8_to_api_dict_raises (r : BacktestRecord) :
    r.to_api_dict =
      Except.error ("AttributeError: BacktestResult object has no attribute " ++ "stats") :=
  rfl

/-- C9: `mark_accessed` increments `access_count` by exactly one, moves
`last_accessed` to the current instant (advancing it, the clock being
monotone), and leaves identity, results and all other metadata fields
unchanged. -/
theorem C9_mark_accessed (r : BacktestRecord) (now : Nat)
    (h : r.metadata.last_accessed ≤ now) :
    (r.mark_accessed now).metadata.access_count = r.metadata.access_count + 1 ∧
    (r.mark_accessed now).metadata.last_accessed = now ∧
    r.metadata.last_accessed ≤ (r.mark_accessed now).metadata.last_accessed ∧
    (r.mark_accessed now).identity = r.identity ∧
    (r.mark_accessed now).results = r.results ∧
    (r.mark_accessed now).metadata.created_at = r.metadata.created_at ∧
    (r.mark_accessed now).metadata.execution_time_seconds
      = r.metadata.execution_time_seconds ∧
    (r.mark_accessed now).metadata.data_filename = r.metadata.data_filename ∧
    (r.mark_accessed now).metadata.data_size_bytes = r.metadata.data_size_bytes ∧
    (r.mark_accessed now).metadata.data_rows = r.metadata.data_rows :=
  ⟨rfl, rfl, h, rfl, rfl, rfl, rfl, rfl, rfl, rfl⟩

/-- A concrete record for instantiating C9 (its four digests have the
64 characters `__post_init__` demands). -/
def sampleRecord : BacktestRecord :=
  ⟨⟨List.replicate 64 'a', List.replicate 64 'b', List.replicate 64 'c',
    List.replicate 64 'd'⟩,
   ⟨0, 0, 1, 0, none, none, 0⟩, ⟨[], [], [], none⟩⟩

/-- C9 (witness): the concrete record accessed at tick 5. -/
theorem C9_witness :
    (sampleRecord.mark_accessed 5).metadata.access_count
      = sampleRecord.metadata.access_count + 1 ∧
    (sampleRecord.mark_accessed 5).metadata.last_accessed = 5 ∧
    sampleRecord.metadata.last_accessed
      ≤ (sampleRecord.mark_accessed 5).metadata.last_accessed ∧
    (sampleRecord.mark_accessed 5).identity = sampleRecord.identity ∧
    (sampleRecord.mark_accessed 5).results = sampleRecord.results ∧
    (sampleRecord.mark_accessed 5).metadata.created_at
      = sampleRecord.metadata.created_at ∧
    (sampleRecord.mark_accessed 5).metadata.execution_time_seconds
      = sampleRecord.metadata.execution_time_seconds ∧
    (sampleRecord.mark_accessed 5).metadata.data_filename
      = sampleRecord.metadata.data_filename ∧
    (sampleRecord.mark_accessed 5).metadata.data_size_bytes
      = sampleRecord.metadata.data_size_bytes ∧
    (sampleRecord.mark_accessed 5).metadata.data_rows
      = sampleRecord.metadata.data_rows :=
  C9_mark_accessed sampleRecord 5 (by decide)

/-- C10: every reachable `CacheStats` satisfies
`cache_hits + cache_misses = total_requests`; `record_hit` adds one to
`cache_hits` and `total_requests` leaving `cache_misses` alone, and
`record_miss` symmetrically. -/
theorem C10_stats_invariant :
    (∀ s : CacheStats, ReachableStats s →
        s.cache_hits + s.cache_misses = s.total_requests) ∧
    (∀ s : CacheStats,
        s.record_hit.cache_hits = s.cache_hits + 1 ∧
        s.record_hit.cache_misses = s.cache_misses ∧
        s.record_hit.total_requests = s.total_requests + 1 ∧
        s.record_miss.cache_misses = s.cache_misses + 1 ∧
        s.record_miss.cache_hits = s.cache_hits ∧
        s.record_miss.total_requests = s.total_requests + 1) := by
  constructor
  · intro s h
    induction h with
    | init => rfl
    | hit _ ih => simp only [CacheStats.record_hit]; omega
    | miss _ ih => simp only [CacheStats.record_miss]; omega
  · intro s
    exact ⟨rfl, rfl, rfl, rfl, rfl, rfl⟩

/-- C10 (witness): the invariant instantiated after one recorded hit
from the default construction. -/
theorem C10_witness :
    CacheStats.init.record_hit.cache_hits + CacheStats.init.record_hit.cache_misses
      = CacheStats.init.record_hit.total_requests :=
  C10_stats_invariant.1 _ (ReachableStats.hit ReachableStats.init)

end ZrataTrader
